import Mathlib

/-!
Verification development for the parallel 3x3 image convolution program
(`image_pThreads.c`): a shallow embedding of the pixel evaluator
(`getPixelValue`), the worker (`convolute_thread_worker`), the scheduler
(`convolute`) with its row-band partition, serial fallback and failure paths,
together with theorems about the program's specified properties.
-/

namespace ImagePThreads

-- Let definitional reduction see through rational arithmetic, so that
-- concrete convolutions can be evaluated by `decide`.
attribute [local semireducible] Rat.add Rat.mul Rat.sub Rat.inv

/-- Model of the C `Image` struct from `image.h`: width, height, bytes per
pixel, and the pixel buffer `data`. The buffer is modelled as a total function
from (integer) byte offset to byte value; all accesses the program performs
are proved in bounds separately. -/
structure Image where
  width : ℤ
  height : ℤ
  bpp : ℤ
  data : ℤ → ℕ

/-- Model of the C `Matrix` typedef: a 3x3 kernel of real-valued weights,
modelled with rational entries (the claims only involve kernels whose weights
and weighted sums are exactly representable in `double`, so rational
arithmetic coincides with the C `double` arithmetic there). -/
abbrev Matrix := Fin 3 → Fin 3 → ℚ

/-- Modelled from the spec: the `Index` macro from `image.h` (the header file
is not among the provided sources; only its uses are). Per the spec the
buffer is row-major with channels interleaved per pixel, so the byte offset
of pixel `(x, y)`, channel `bit`, is `(y*width + x)*bpp + bit`. -/
def Index (x y width bit bpp : ℤ) : ℤ :=
  (y * width + x) * bpp + bit

/-- The clamp-and-cast at the end of `getPixelValue` (lines 55-59): values
above 255 become 255, values below 0 become 0, and the `(uint8_t)` cast
truncates the remaining value in `[0, 255]` (truncation toward zero equals
floor there). -/
def clampByte (v : ℚ) : ℕ :=
  let v1 := if v > 255 then (255 : ℚ) else v
  let v2 := if v1 < 0 then (0 : ℚ) else v1
  ⌊v2⌋.toNat

/-- `getPixelValue` (lines 35-60): the nine neighbor coordinates with the
source's edge clamping (`mx`, `my` clamped up to 0; `px`, `py` clamped down
to width-1 / height-1), the weighted sum of the nine source bytes, then
clamping to a byte. -/
def getPixelValue (srcImage : Image) (x y bit : ℤ) (algorithm : Matrix) : ℕ :=
  let px := if x + 1 ≥ srcImage.width then srcImage.width - 1 else x + 1
  let py := if y + 1 ≥ srcImage.height then srcImage.height - 1 else y + 1
  let mx := if x - 1 < 0 then 0 else x - 1
  let my := if y - 1 < 0 then 0 else y - 1
  let result_double : ℚ :=
    algorithm 0 0 * srcImage.data (Index mx my srcImage.width bit srcImage.bpp) +
    algorithm 0 1 * srcImage.data (Index x my srcImage.width bit srcImage.bpp) +
    algorithm 0 2 * srcImage.data (Index px my srcImage.width bit srcImage.bpp) +
    algorithm 1 0 * srcImage.data (Index mx y srcImage.width bit srcImage.bpp) +
    algorithm 1 1 * srcImage.data (Index x y srcImage.width bit srcImage.bpp) +
    algorithm 1 2 * srcImage.data (Index px y srcImage.width bit srcImage.bpp) +
    algorithm 2 0 * srcImage.data (Index mx py srcImage.width bit srcImage.bpp) +
    algorithm 2 1 * srcImage.data (Index x py srcImage.width bit srcImage.bpp) +
    algorithm 2 2 * srcImage.data (Index px py srcImage.width bit srcImage.bpp)
  clampByte result_double

/-- The nine source-buffer indices read by `getPixelValue` (lines 45-53), in
the order the source reads them. -/
def getPixelReadIndices (srcImage : Image) (x y bit : ℤ) : List ℤ :=
  let px := if x + 1 ≥ srcImage.width then srcImage.width - 1 else x + 1
  let py := if y + 1 ≥ srcImage.height then srcImage.height - 1 else y + 1
  let mx := if x - 1 < 0 then 0 else x - 1
  let my := if y - 1 < 0 then 0 else y - 1
  [Index mx my srcImage.width bit srcImage.bpp,
   Index x my srcImage.width bit srcImage.bpp,
   Index px my srcImage.width bit srcImage.bpp,
   Index mx y srcImage.width bit srcImage.bpp,
   Index x y srcImage.width bit srcImage.bpp,
   Index px y srcImage.width bit srcImage.bpp,
   Index mx py srcImage.width bit srcImage.bpp,
   Index x py srcImage.width bit srcImage.bpp,
   Index px py srcImage.width bit srcImage.bpp]

/-- Model of the C `ThreadData` struct (lines 65-71). -/
structure ThreadData where
  srcImage : Image
  destImage : Image
  algorithm : Matrix
  start_row : ℤ
  end_row : ℤ

/-- The list of integers `a, a+1, ..., b-1`: the values taken by a C
`for (i = a; i < b; i++)` loop (empty when `b ≤ a`). -/
def intRange (a b : ℤ) : List ℤ :=
  (List.range (b - a).toNat).map (fun k : ℕ => a + (k : ℤ))

/-- The writes performed while processing one row: for each pixel and each
channel, the destination offset `Index(pix, row, srcImage.width, bit,
srcImage.bpp)` receives `getPixelValue(srcImage, pix, row, bit, algorithm)`.
This is the (identical) loop body of both `convolute_thread_worker`
(lines 81-87) and the serial fallback inside `convolute` (lines 110-114). -/
def rowWrites (srcImage : Image) (algorithm : Matrix) (row : ℤ) : List (ℤ × ℕ) :=
  (intRange 0 srcImage.width).flatMap (fun pix =>
    (intRange 0 srcImage.bpp).map (fun bit =>
      (Index pix row srcImage.width bit srcImage.bpp,
       getPixelValue srcImage pix row bit algorithm)))

/-- The writes performed by `convolute_thread_worker` (lines 75-91) into the
destination buffer, in program order: all rows in `[start_row, end_row)`. -/
def convolute_thread_worker (data : ThreadData) : List (ℤ × ℕ) :=
  (intRange data.start_row data.end_row).flatMap
    (rowWrites data.srcImage data.algorithm)

/-- The writes performed by the serial fallback loop of `convolute`
(lines 109-115), in program order: all rows in `[0, height)`. -/
def serialFallbackWrites (srcImage : Image) (algorithm : Matrix) : List (ℤ × ℕ) :=
  (intRange 0 srcImage.height).flatMap (rowWrites srcImage algorithm)

/-- One unrolling of the band-assignment loop of `convolute` (lines 127-143):
given `rows_per_thread`, the current `remaining_rows` and `current_row`, and
the number of iterations left, produce the `(start_row, end_row)` pairs. Each
iteration hands out `rows_per_thread` rows, plus one extra while
`remaining_rows > 0`. -/
def bandsAux (rows_per_thread : ℤ) : ℤ → ℤ → ℕ → List (ℤ × ℤ)
  | _, _, 0 => []
  | remaining_rows, current_row, n + 1 =>
    let rows_for_this_thread :=
      if remaining_rows > 0 then rows_per_thread + 1 else rows_per_thread
    let remaining' := if remaining_rows > 0 then remaining_rows - 1 else remaining_rows
    (current_row, current_row + rows_for_this_thread) ::
      bandsAux rows_per_thread remaining' (current_row + rows_for_this_thread) n

/-- The row bands computed by `convolute` (lines 122-143):
`rows_per_thread = height / num_threads` and
`remaining_rows = height % num_threads` with C truncated division
(`Int.tdiv` / `Int.tmod`), bands starting at row 0; the launch loop runs
`num_threads` times (zero times when `num_threads ≤ 0`). -/
def convoluteBands (height num_threads : ℤ) : List (ℤ × ℤ) :=
  bandsAux (height.tdiv num_threads) (height.tmod num_threads) 0 num_threads.toNat

/-- All writes of the multi-threaded path of `convolute` (lines 127-156):
one `convolute_thread_worker` per band. -/
def convoluteParallelWrites (srcImage destImage : Image) (algorithm : Matrix)
    (num_threads : ℤ) : List (ℤ × ℕ) :=
  (convoluteBands srcImage.height num_threads).flatMap (fun band =>
    convolute_thread_worker ⟨srcImage, destImage, algorithm, band.1, band.2⟩)

/-- Apply a list of `(offset, value)` writes to a buffer, in order. -/
def applyWrites (buf : ℤ → ℕ) : List (ℤ × ℕ) → (ℤ → ℕ)
  | [] => buf
  | w :: ws => applyWrites (fun j => if j = w.1 then w.2 else buf j) ws

/-- The environment `convolute` runs in: the `sysconf(_SC_NPROCESSORS_ONLN)`
result (line 98; `-1` when the query fails), whether the two `malloc` calls
of lines 103-104 succeed when their requested sizes are allocatable at all
(see `convolute` for the sizes), and which `pthread_create` calls (line 146)
fail. -/
structure ConvEnv where
  numCores : ℤ
  allocOk : Bool
  spawnFails : ℕ → Bool

/-- Outcome of a `convolute` call: it returns normally, carrying the final
contents of the destination buffer and the number of `pthread_join` calls
performed; or the process exits fatally via `exit(-1)` (line 149), recording
how many threads had been created and how many `pthread_join` calls had been
executed before the exit; or it divides by zero at line 122
(`height / num_threads` with `num_threads = 0`), which is undefined
behavior. -/
inductive ConvResult where
  | completed (finalData : ℤ → ℕ) (joins : ℕ)
  | fatalExit (startedBeforeExit : ℕ) (joinedBeforeExit : ℕ)
  | divisionByZero

/-- The final destination buffer, when `convolute` returns (none on a fatal
process exit or on the division by zero). -/
def ConvResult.finalData? : ConvResult → Option (ℤ → ℕ)
  | .completed f _ => some f
  | .fatalExit _ _ => none
  | .divisionByZero => none

/-- Index of the first of `num_threads` `pthread_create` attempts that
fails, if any. -/
def firstFailure (spawnFails : ℕ → Bool) (num_threads : ℕ) : Option ℕ :=
  (List.range num_threads).find? spawnFails

/-- Model of `convolute` (lines 95-161). `num_threads` is the `sysconf`
result, unvalidated (lines 98-99). Lines 103-104 request
`num_threads * sizeof(pthread_t)` and `num_threads * sizeof(ThreadData)`
bytes: when `num_threads` is negative the products convert to enormous
`size_t` values, so those allocations necessarily fail; when
`num_threads ≥ 0` the oracle `env.allocOk` decides whether they succeed
(this includes `malloc(0)`, which a C library may or may not satisfy). On
any allocation failure the serial fallback runs and the function returns
(lines 106-119). Otherwise, if `num_threads = 0`, line 122 divides by zero —
undefined behavior. Otherwise the launch loop creates one worker per band;
at the first failing `pthread_create` the process exits immediately via
`exit(-1)` (lines 147-150), with no `pthread_join` executed. If every
creation succeeds, all `num_threads` workers are joined (lines 154-156) and
the destination buffer holds all the workers' writes. -/
def convolute (srcImage destImage : Image) (algorithm : Matrix) (env : ConvEnv) :
    ConvResult :=
  let num_threads : ℤ := env.numCores
  if num_threads < 0 ∨ env.allocOk = false then
    ConvResult.completed
      (applyWrites destImage.data (serialFallbackWrites srcImage algorithm)) 0
  else if num_threads = 0 then
    ConvResult.divisionByZero
  else
    match firstFailure env.spawnFails num_threads.toNat with
    | some i => ConvResult.fatalExit i 0
    | none =>
      ConvResult.completed
        (applyWrites destImage.data
          (convoluteParallelWrites srcImage destImage algorithm num_threads))
        num_threads.toNat

/-- The SHARPEN kernel of the `algorithms` table (line 20). -/
def sharpenKernel : Matrix :=
  ![![0, -1, 0], ![-1, 5, -1], ![0, -1, 0]]

/-- The IDENTITY kernel of the `algorithms` table (line 24). -/
def identityKernel : Matrix :=
  ![![0, 0, 0], ![0, 1, 0], ![0, 0, 0]]

/-! ## Claim-level properties (definitions) -/

/-- The partition property claimed of the row bands: one band per thread; the
first `height % T` bands have `height / T + 1` rows and the remaining ones
`height / T` rows; bands are laid out consecutively starting at row 0; any
two distinct bands are disjoint; the union of the bands is exactly the rows
`0 ≤ y < height`; and any two band sizes differ by at most one row. -/
def bandsPartitionSpec (height T : ℤ) : Prop :=
  (convoluteBands height T).length = T.toNat ∧
  (∀ i : ℕ, i < (convoluteBands height T).length →
    ((convoluteBands height T).getD i (0, 0)).2
        - ((convoluteBands height T).getD i (0, 0)).1
      = if (i : ℤ) < height.tmod T then height.tdiv T + 1 else height.tdiv T) ∧
  (∀ i : ℕ, i + 1 < (convoluteBands height T).length →
    ((convoluteBands height T).getD (i + 1) (0, 0)).1
      = ((convoluteBands height T).getD i (0, 0)).2) ∧
  (0 < (convoluteBands height T).length →
    ((convoluteBands height T).getD 0 (0, 0)).1 = 0) ∧
  (∀ i j : ℕ, i < (convoluteBands height T).length →
    j < (convoluteBands height T).length → i ≠ j → ∀ y : ℤ,
    ¬(((convoluteBands height T).getD i (0, 0)).1 ≤ y ∧
      y < ((convoluteBands height T).getD i (0, 0)).2 ∧
      ((convoluteBands height T).getD j (0, 0)).1 ≤ y ∧
      y < ((convoluteBands height T).getD j (0, 0)).2)) ∧
  (∀ y : ℤ, (∃ b ∈ convoluteBands height T, b.1 ≤ y ∧ y < b.2) ↔
    0 ≤ y ∧ y < height) ∧
  (∀ i j : ℕ, i < (convoluteBands height T).length →
    j < (convoluteBands height T).length →
    (((convoluteBands height T).getD i (0, 0)).2
        - ((convoluteBands height T).getD i (0, 0)).1)
      - (((convoluteBands height T).getD j (0, 0)).2
        - ((convoluteBands height T).getD j (0, 0)).1) ≤ 1)

/-- The parallel/serial equivalence property claimed of `convolute`: the
multi-threaded path performs exactly the serial fallback's writes, the final
destination buffers agree everywhere, and at every in-bounds coordinate both
paths leave `getPixelValue src x y c alg` at `Index x y width c bpp`. -/
def parallelSerialSpec (src dest : Image) (alg : Matrix) (T : ℤ) : Prop :=
  convoluteParallelWrites src dest alg T = serialFallbackWrites src alg ∧
  (∀ j : ℤ, applyWrites dest.data (convoluteParallelWrites src dest alg T) j
    = applyWrites dest.data (serialFallbackWrites src alg) j) ∧
  (∀ x y c : ℤ, 0 ≤ x → x < src.width → 0 ≤ y → y < src.height →
    0 ≤ c → c < src.bpp →
    applyWrites dest.data (convoluteParallelWrites src dest alg T)
        (Index x y src.width c src.bpp) = getPixelValue src x y c alg ∧
    applyWrites dest.data (serialFallbackWrites src alg)
        (Index x y src.width c src.bpp) = getPixelValue src x y c alg)

/-- The spec's replicate-edge clamp: the nearest in-bounds coordinate in
`[lo, hi]`. -/
def specClamp (lo hi t : ℤ) : ℤ := max lo (min t hi)

/-- The source offsets of the 3x3 neighborhood of `(x, y)` as the spec
describes them: each neighbor coordinate independently clamped per axis to
the nearest in-bounds coordinate (no zero-padding, no wraparound). -/
def specReadIndices (src : Image) (x y bit : ℤ) : List ℤ :=
  [Index (specClamp 0 (src.width - 1) (x - 1)) (specClamp 0 (src.height - 1) (y - 1))
     src.width bit src.bpp,
   Index (specClamp 0 (src.width - 1) x) (specClamp 0 (src.height - 1) (y - 1))
     src.width bit src.bpp,
   Index (specClamp 0 (src.width - 1) (x + 1)) (specClamp 0 (src.height - 1) (y - 1))
     src.width bit src.bpp,
   Index (specClamp 0 (src.width - 1) (x - 1)) (specClamp 0 (src.height - 1) y)
     src.width bit src.bpp,
   Index (specClamp 0 (src.width - 1) x) (specClamp 0 (src.height - 1) y)
     src.width bit src.bpp,
   Index (specClamp 0 (src.width - 1) (x + 1)) (specClamp 0 (src.height - 1) y)
     src.width bit src.bpp,
   Index (specClamp 0 (src.width - 1) (x - 1)) (specClamp 0 (src.height - 1) (y + 1))
     src.width bit src.bpp,
   Index (specClamp 0 (src.width - 1) x) (specClamp 0 (src.height - 1) (y + 1))
     src.width bit src.bpp,
   Index (specClamp 0 (src.width - 1) (x + 1)) (specClamp 0 (src.height - 1) (y + 1))
     src.width bit src.bpp]

/-- The weighted 3x3 neighborhood sum as the spec describes it: weights applied
to the source bytes at the per-axis clamped neighbor coordinates. -/
def specNeighborhoodValue (src : Image) (x y bit : ℤ) (alg : Matrix) : ℚ :=
  alg 0 0 * src.data (Index (specClamp 0 (src.width - 1) (x - 1))
    (specClamp 0 (src.height - 1) (y - 1)) src.width bit src.bpp) +
  alg 0 1 * src.data (Index (specClamp 0 (src.width - 1) x)
    (specClamp 0 (src.height - 1) (y - 1)) src.width bit src.bpp) +
  alg 0 2 * src.data (Index (specClamp 0 (src.width - 1) (x + 1))
    (specClamp 0 (src.height - 1) (y - 1)) src.width bit src.bpp) +
  alg 1 0 * src.data (Index (specClamp 0 (src.width - 1) (x - 1))
    (specClamp 0 (src.height - 1) y) src.width bit src.bpp) +
  alg 1 1 * src.data (Index (specClamp 0 (src.width - 1) x)
    (specClamp 0 (src.height - 1) y) src.width bit src.bpp) +
  alg 1 2 * src.data (Index (specClamp 0 (src.width - 1) (x + 1))
    (specClamp 0 (src.height - 1) y) src.width bit src.bpp) +
  alg 2 0 * src.data (Index (specClamp 0 (src.width - 1) (x - 1))
    (specClamp 0 (src.height - 1) (y + 1)) src.width bit src.bpp) +
  alg 2 1 * src.data (Index (specClamp 0 (src.width - 1) x)
    (specClamp 0 (src.height - 1) (y + 1)) src.width bit src.bpp) +
  alg 2 2 * src.data (Index (specClamp 0 (src.width - 1) (x + 1))
    (specClamp 0 (src.height - 1) (y + 1)) src.width bit src.bpp)

/-- The 4x4 single-channel test image of the clamping property: all bytes 0
except the center pixel (1, 1), which is 100 (buffer offset 5). -/
def clampTestSrc : Image := ⟨4, 4, 1, fun i => if i = 5 then 100 else 0⟩

/-- An all-zero 4x4 single-channel destination image. -/
def clampTestDest : Image := ⟨4, 4, 1, fun _ => 0⟩

/-- A concrete 2x2 single-channel source image with every byte 7, used as a
witness input. -/
def witSrc : Image := ⟨2, 2, 1, fun _ => 7⟩

/-- A concrete 2x2 single-channel all-zero destination image, used as a
witness input. -/
def witDest : Image := ⟨2, 2, 1, fun _ => 0⟩

/-- The preconditions the spec says the convolve entry point checks before
scheduling: equal dimensions and bpp, positive width and height, bpp in
1..4. -/
def validImagePair (src dest : Image) : Prop :=
  src.width = dest.width ∧ src.height = dest.height ∧ src.bpp = dest.bpp ∧
  0 < src.width ∧ 0 < src.height ∧ 1 ≤ src.bpp ∧ src.bpp ≤ 4

/-- The parallelism degree used by `convolute` (lines 98-99): the `sysconf`
result cast to `int`, with no validation or fallback. -/
def convoluteNumThreads (env : ConvEnv) : ℤ := env.numCores

/-- What `convolute` actually does when a `pthread_create` fails at index `i`
(lines 147-150): the process exits fatally at once — zero `pthread_join`
calls before the exit — and control never returns to the caller. -/
def spawnFailureFatalSpec (src dest : Image) (alg : Matrix) (env : ConvEnv)
    (i : ℕ) : Prop :=
  convolute src dest alg env = ConvResult.fatalExit i 0 ∧
  ∀ f n, convolute src dest alg env ≠ ConvResult.completed f n

/-- `convolute` performs no input validation: for any source/destination pair
(valid or not), when allocation succeeds and no spawn fails it returns
normally having written the full convolution, indexed by the source image's
geometry. -/
def noValidationSpec (src dest : Image) (alg : Matrix) (env : ConvEnv) : Prop :=
  ∃ f, (convolute src dest alg env).finalData? = some f ∧
    ∀ x y c : ℤ, 0 ≤ x → x < src.width → 0 ≤ y → y < src.height →
      0 ≤ c → c < src.bpp →
      f (Index x y src.width c src.bpp) = getPixelValue src x y c alg

/-- What `convolute` actually does when the concurrency query reports a
non-positive value, which it adopts as-is with no fallback: for a negative
value the worker-array allocation request is an enormous `size_t` that
necessarily fails, so the serial fallback writes the entire image and the
call returns; for a zero value, if `malloc(0)` succeeds the band computation
divides by zero (undefined behavior; if `malloc(0)` yields NULL the serial
fallback runs instead). -/
def degenerateSchedulerSpec (src dest : Image) (alg : Matrix) (env : ConvEnv) :
    Prop :=
  convoluteNumThreads env = env.numCores ∧
  (env.numCores < 0 →
    convolute src dest alg env
      = ConvResult.completed
          (applyWrites dest.data (serialFallbackWrites src alg)) 0) ∧
  (env.numCores = 0 → env.allocOk = true →
    convolute src dest alg env = ConvResult.divisionByZero) ∧
  (env.numCores = 0 → env.allocOk = false →
    convolute src dest alg env
      = ConvResult.completed
          (applyWrites dest.data (serialFallbackWrites src alg)) 0)

/-- Every access of the convolution is in bounds: for every worker band and
row in it (and likewise every row of the serial loop), every pixel and
channel, the nine `getPixelValue` reads and the destination write all use an
offset in `[0, width*height*bpp)`. -/
def convolutionAccessesInBounds (src : Image) (T : ℤ) : Prop :=
  (∀ band ∈ convoluteBands src.height T, ∀ row : ℤ, band.1 ≤ row → row < band.2 →
    ∀ pix : ℤ, 0 ≤ pix → pix < src.width → ∀ bit : ℤ, 0 ≤ bit → bit < src.bpp →
      (∀ i ∈ getPixelReadIndices src pix row bit,
        0 ≤ i ∧ i < src.width * src.height * src.bpp) ∧
      0 ≤ Index pix row src.width bit src.bpp ∧
      Index pix row src.width bit src.bpp < src.width * src.height * src.bpp) ∧
  (∀ row : ℤ, 0 ≤ row → row < src.height →
    ∀ pix : ℤ, 0 ≤ pix → pix < src.width → ∀ bit : ℤ, 0 ≤ bit → bit < src.bpp →
      (∀ i ∈ getPixelReadIndices src pix row bit,
        0 ≤ i ∧ i < src.width * src.height * src.bpp) ∧
      0 ≤ Index pix row src.width bit src.bpp ∧
      Index pix row src.width bit src.bpp < src.width * src.height * src.bpp)

/-- When T exceeds the height: some band is empty; a worker whose band is
empty performs no writes; and every row in `[0, height)` still lies in
exactly one band. -/
def emptyBandsSpec (height T : ℤ) : Prop :=
  (∃ b ∈ convoluteBands height T, b.1 = b.2) ∧
  (∀ td : ThreadData, td.start_row = td.end_row →
    convolute_thread_worker td = []) ∧
  (∀ y : ℤ, 0 ≤ y → y < height →
    ∃ i : ℕ, i < (convoluteBands height T).length ∧
      ((convoluteBands height T).getD i (0, 0)).1 ≤ y ∧
      y < ((convoluteBands height T).getD i (0, 0)).2 ∧
      ∀ j : ℕ, j < (convoluteBands height T).length →
        ((convoluteBands height T).getD j (0, 0)).1 ≤ y →
        y < ((convoluteBands height T).getD j (0, 0)).2 → j = i)

/-- An environment whose third `pthread_create` (index 2) fails, with 4
cores. -/
def envSpawnFail2 : ConvEnv := ⟨4, true, fun n => n == 2⟩

/-- A benign single-core environment: allocation succeeds, no spawn fails. -/
def envNoFail1 : ConvEnv := ⟨1, true, fun _ => false⟩

/-- An environment in which the `sysconf` concurrency query failed and
returned -1. -/
def envQueryFailed : ConvEnv := ⟨-1, true, fun _ => false⟩

/-- A destination image whose width disagrees with `witSrc` (an invalid
pair). -/
def invalidDest : Image := ⟨5, 2, 1, fun _ => 0⟩

/-! ## Partition lemmas: closed form of the row bands -/

/-- Start offset of band `i`: `i` bands of `q` rows each, plus one extra row
for each of the first `min i r` bands. -/
def bandOffset (q r : ℤ) (i : ℕ) : ℤ := (i : ℤ) * q + min (i : ℤ) r

theorem bandOffset_zero (q r : ℤ) (hr : 0 ≤ r) : bandOffset q r 0 = 0 := by
  simp [bandOffset]
  omega

theorem bandOffset_mono (q r : ℤ) (hq : 0 ≤ q) {i j : ℕ} (hij : i ≤ j) :
    bandOffset q r i ≤ bandOffset q r j := by
  unfold bandOffset
  have h1 : (i : ℤ) * q ≤ (j : ℤ) * q :=
    mul_le_mul_of_nonneg_right (by exact_mod_cast hij) hq
  have h2 : min (i : ℤ) r ≤ min (j : ℤ) r := by omega
  exact add_le_add h1 h2

theorem bandOffset_succ_sub (q r : ℤ) (hr : 0 ≤ r) (i : ℕ) :
    bandOffset q r (i + 1) - bandOffset q r i = if (i : ℤ) < r then q + 1 else q := by
  unfold bandOffset
  have hc : ((i + 1 : ℕ) : ℤ) = (i : ℤ) + 1 := by push_cast; ring
  rw [hc, add_mul, one_mul]
  by_cases h : (i : ℤ) < r
  · have hmin : min ((i : ℤ) + 1) r = min (i : ℤ) r + 1 := by omega
    rw [hmin, if_pos h]
    have hmin2 : min (i : ℤ) r = (i : ℤ) := by omega
    ring
  · have hmin : min ((i : ℤ) + 1) r = r := by omega
    have hmin2 : min (i : ℤ) r = r := by omega
    rw [hmin, hmin2, if_neg h]
    ring

theorem bandOffset_last (q r T : ℤ) (hT : 1 ≤ T) (hr0 : 0 ≤ r) (hrT : r < T) :
    bandOffset q r T.toNat = T * q + min T r := by
  unfold bandOffset
  rw [Int.toNat_of_nonneg (by omega : (0 : ℤ) ≤ T)]

theorem bandOffset_succ_shift_pos (q r : ℤ) (hr : 0 < r) (i : ℕ) :
    bandOffset q r (i + 1) = (q + 1) + bandOffset q (r - 1) i := by
  unfold bandOffset
  have hca : ((i + 1 : ℕ) : ℤ) = (i : ℤ) + 1 := by push_cast; ring
  rw [hca, add_mul, one_mul]
  have hm : min ((i : ℤ) + 1) r = min (i : ℤ) (r - 1) + 1 := by omega
  rw [hm]; ring

theorem bandOffset_succ_shift_zero (q : ℤ) (i : ℕ) :
    bandOffset q 0 (i + 1) = q + bandOffset q 0 i := by
  unfold bandOffset
  have hca : ((i + 1 : ℕ) : ℤ) = (i : ℤ) + 1 := by push_cast; ring
  rw [hca, add_mul, one_mul]
  have h1 : min ((i : ℤ) + 1) (0 : ℤ) = 0 := by omega
  have h2 : min ((i : ℤ)) (0 : ℤ) = 0 := by omega
  rw [h1, h2]; ring

theorem bandOffset_one (q r : ℤ) (hr : 0 < r) : bandOffset q r 1 = q + 1 := by
  unfold bandOffset
  have : min ((1 : ℕ) : ℤ) r = 1 := by
    have h1 : ((1 : ℕ) : ℤ) = 1 := by norm_num
    omega
  rw [this]
  push_cast; ring

theorem bandOffset_one_zero (q : ℤ) : bandOffset q 0 1 = q := by
  unfold bandOffset
  have : min ((1 : ℕ) : ℤ) (0 : ℤ) = 0 := by
    have h1 : ((1 : ℕ) : ℤ) = 1 := by norm_num
    omega
  rw [this]
  push_cast; ring

/-- Closed form of the band-assignment loop: starting at `current_row = c` with
`remaining_rows = r ≥ 0`, the `n` generated bands are the consecutive
intervals delimited by `c + bandOffset q r i`. -/
theorem bandsAux_eq_map (n : ℕ) (q : ℤ) :
    ∀ (r c : ℤ), 0 ≤ r →
      bandsAux q r c n =
        (List.range n).map (fun i => (c + bandOffset q r i, c + bandOffset q r (i + 1))) := by
  induction n with
  | zero => intro r c _; simp [bandsAux]
  | succ n ih =>
    intro r c hr
    rw [List.range_succ_eq_map, List.map_cons, List.map_map]
    show bandsAux q r c (n + 1) = _
    rw [bandsAux]
    by_cases hpos : r > 0
    · simp only [if_pos hpos]
      rw [ih (r - 1) (c + (q + 1)) (by omega)]
      have e0 : bandOffset q r 0 = 0 := bandOffset_zero q r hr
      have e1 : bandOffset q r (0 + 1) = q + 1 := by
        norm_num [bandOffset_one q r hpos]
      rw [e0, e1, add_zero]
      congr 1
      apply List.map_congr_left
      intro i _
      simp only [Function.comp_apply, Prod.mk.injEq]
      rw [bandOffset_succ_shift_pos q r hpos i, bandOffset_succ_shift_pos q r hpos (i + 1)]
      exact ⟨by ring, by ring⟩
    · simp only [if_neg hpos]
      have hr0 : r = 0 := by omega
      subst hr0
      rw [ih 0 (c + q) (le_refl 0)]
      have e0 : bandOffset q 0 0 = 0 := bandOffset_zero q 0 (le_refl 0)
      have e1 : bandOffset q 0 (0 + 1) = q := by
        norm_num [bandOffset_one_zero q]
      rw [e0, e1, add_zero]
      congr 1
      apply List.map_congr_left
      intro i _
      simp only [Function.comp_apply, Prod.mk.injEq]
      simp only [Nat.succ_eq_add_one]
      have s1 := bandOffset_succ_shift_zero q i
      have s2 := bandOffset_succ_shift_zero q (i + 1)
      constructor <;> omega

/-- Arithmetic facts about `height / T` and `height % T` (C truncated
division) for `height ≥ 0`, `T ≥ 1`. -/
theorem tdiv_tmod_facts (h T : ℤ) (hh : 0 ≤ h) (hT : 1 ≤ T) :
    0 ≤ h.tdiv T ∧ 0 ≤ h.tmod T ∧ h.tmod T < T ∧ T * h.tdiv T + h.tmod T = h := by
  rw [Int.tdiv_eq_ediv hh (by omega), Int.tmod_eq_emod hh (by omega)]
  exact ⟨Int.ediv_nonneg hh (by omega), Int.emod_nonneg h (by omega),
    Int.emod_lt_of_pos h (by omega), Int.ediv_add_emod h T⟩

/-- The bands of `convolute` in closed form. -/
theorem convoluteBands_eq_map (h T : ℤ) (hh : 0 ≤ h) (hT : 1 ≤ T) :
    convoluteBands h T =
      (List.range T.toNat).map
        (fun i => (bandOffset (h.tdiv T) (h.tmod T) i,
                   bandOffset (h.tdiv T) (h.tmod T) (i + 1))) := by
  obtain ⟨_, hr0, _, _⟩ := tdiv_tmod_facts h T hh hT
  unfold convoluteBands
  rw [bandsAux_eq_map T.toNat (h.tdiv T) (h.tmod T) 0 hr0]
  apply List.map_congr_left
  intro i _
  simp

/-- The last band offset is exactly `height`. -/
theorem bandOffset_total (h T : ℤ) (hh : 0 ≤ h) (hT : 1 ≤ T) :
    bandOffset (h.tdiv T) (h.tmod T) T.toNat = h := by
  obtain ⟨_, hr0, hrT, hsum⟩ := tdiv_tmod_facts h T hh hT
  rw [bandOffset_last _ _ T hT hr0 hrT]
  have : min T (h.tmod T) = h.tmod T := by omega
  rw [this]
  omega

/-! ## Ranges, writes, and the buffer layout -/

theorem mem_intRange {a b y : ℤ} : y ∈ intRange a b ↔ a ≤ y ∧ y < b := by
  simp only [intRange, List.mem_map, List.mem_range]
  constructor
  · rintro ⟨k, hk, rfl⟩; omega
  · intro h; exact ⟨(y - a).toNat, by omega, by omega⟩

theorem intRange_self (a : ℤ) : intRange a a = [] := by
  simp [intRange]

theorem intRange_append {a b c : ℤ} (hab : a ≤ b) (hbc : b ≤ c) :
    intRange a b ++ intRange b c = intRange a c := by
  unfold intRange
  have hm : (c - a).toNat = (b - a).toNat + (c - b).toNat := by omega
  rw [hm, List.range_add, List.map_append, List.map_map]
  congr 1
  apply List.map_congr_left
  intro k _
  simp only [Function.comp_apply]
  omega

/-- Concatenating the row ranges of consecutive intervals delimited by a
monotone `f` gives the full range. -/
theorem flatMap_intRange_chain (f : ℕ → ℤ) (hmono : ∀ i j : ℕ, i ≤ j → f i ≤ f j) :
    ∀ n : ℕ, (List.range n).flatMap (fun i => intRange (f i) (f (i + 1)))
      = intRange (f 0) (f n) := by
  intro n
  induction n with
  | zero => simp [intRange_self]
  | succ n ih =>
    rw [List.range_succ, List.flatMap_append, ih]
    simp only [List.flatMap_cons, List.flatMap_nil, List.append_nil]
    exact intRange_append (hmono 0 n (by omega)) (hmono n (n + 1) (by omega))

theorem applyWrites_of_not_mem (ws : List (ℤ × ℕ)) :
    ∀ (buf : ℤ → ℕ) (i : ℤ), (∀ v, (i, v) ∉ ws) → applyWrites buf ws i = buf i := by
  induction ws with
  | nil => intro buf i _; rfl
  | cons w ws ih =>
    obtain ⟨a, b⟩ := w
    intro buf i h
    show applyWrites (fun j => if j = a then b else buf j) ws i = buf i
    rw [ih _ i (fun v hv => h v (List.mem_cons_of_mem _ hv))]
    have hne : i ≠ a := by
      intro he
      exact h b (by rw [he]; exact List.mem_cons_self _ _)
    simp [hne]

theorem applyWrites_of_mem_unique (ws : List (ℤ × ℕ)) :
    ∀ (buf : ℤ → ℕ) (i : ℤ) (v : ℕ), (i, v) ∈ ws →
      (∀ v', (i, v') ∈ ws → v' = v) → applyWrites buf ws i = v := by
  induction ws with
  | nil => intro _ _ _ h _; cases h
  | cons w ws ih =>
    obtain ⟨a, b⟩ := w
    intro buf i v hmem huniq
    show applyWrites (fun j => if j = a then b else buf j) ws i = v
    by_cases htail : ∃ v', (i, v') ∈ ws
    · obtain ⟨v', hv'⟩ := htail
      have hv'v : v' = v := huniq v' (List.mem_cons_of_mem _ hv')
      subst hv'v
      exact ih _ i v' hv' (fun u hu => huniq u (List.mem_cons_of_mem _ hu))
    · push_neg at htail
      rw [applyWrites_of_not_mem ws _ i htail]
      rcases List.mem_cons.mp hmem with hhead | htl
      · simp only [Prod.mk.injEq] at hhead
        obtain ⟨rfl, rfl⟩ := hhead
        simp
      · exact absurd htl (htail v)

theorem Index_nonneg {x y w c bpp : ℤ} (hx : 0 ≤ x) (hy : 0 ≤ y) (hc : 0 ≤ c)
    (hw : 0 ≤ w) (hbpp : 0 ≤ bpp) : 0 ≤ Index x y w c bpp := by
  unfold Index
  have h1 : 0 ≤ y * w := mul_nonneg hy hw
  have h2 : 0 ≤ (y * w + x) * bpp := mul_nonneg (by omega) hbpp
  omega

theorem Index_lt {x y c w h bpp : ℤ} (hx0 : 0 ≤ x) (hx : x < w) (hy0 : 0 ≤ y)
    (hy : y < h) (hc0 : 0 ≤ c) (hc : c < bpp) :
    Index x y w c bpp < w * h * bpp := by
  unfold Index
  have hyw : y * w ≤ (h - 1) * w := mul_le_mul_of_nonneg_right (by omega) (by omega)
  have e3 : (h - 1) * w = h * w - w := by ring
  have h1 : y * w + x + 1 ≤ h * w := by linarith
  have h2 : (y * w + x + 1) * bpp ≤ (h * w) * bpp :=
    mul_le_mul_of_nonneg_right h1 (by omega)
  have e1 : (y * w + x + 1) * bpp = (y * w + x) * bpp + bpp := by ring
  have e2 : (h * w) * bpp = w * h * bpp := by ring
  linarith

theorem addMul_inj {a1 a2 c1 c2 b : ℤ} (hb : 0 < b) (h1 : 0 ≤ c1) (h2 : c1 < b)
    (h3 : 0 ≤ c2) (h4 : c2 < b) (heq : a1 * b + c1 = a2 * b + c2) :
    a1 = a2 ∧ c1 = c2 := by
  have ha : a1 = a2 := by
    rcases lt_trichotomy a1 a2 with h | h | h
    · exfalso
      have hm : (a1 + 1) * b ≤ a2 * b := mul_le_mul_of_nonneg_right (by omega) (by omega)
      have e : (a1 + 1) * b = a1 * b + b := by ring
      linarith
    · exact h
    · exfalso
      have hm : (a2 + 1) * b ≤ a1 * b := mul_le_mul_of_nonneg_right (by omega) (by omega)
      have e : (a2 + 1) * b = a2 * b + b := by ring
      linarith
  refine ⟨ha, ?_⟩
  subst ha
  linarith

theorem Index_inj {x1 y1 c1 x2 y2 c2 w h bpp : ℤ}
    (hx10 : 0 ≤ x1) (hx1 : x1 < w) (hy10 : 0 ≤ y1) (hy1 : y1 < h)
    (hc10 : 0 ≤ c1) (hc1 : c1 < bpp)
    (hx20 : 0 ≤ x2) (hx2 : x2 < w) (hy20 : 0 ≤ y2) (hy2 : y2 < h)
    (hc20 : 0 ≤ c2) (hc2 : c2 < bpp)
    (heq : Index x1 y1 w c1 bpp = Index x2 y2 w c2 bpp) :
    x1 = x2 ∧ y1 = y2 ∧ c1 = c2 := by
  unfold Index at heq
  obtain ⟨hA, hcc⟩ := addMul_inj (by omega) hc10 hc1 hc20 hc2 heq
  obtain ⟨hyy, hxx⟩ := addMul_inj (by omega) hx10 hx1 hx20 hx2 hA
  exact ⟨hxx, hyy, hcc⟩

theorem mem_rowWrites {src : Image} {alg : Matrix} {row : ℤ} {p : ℤ × ℕ} :
    p ∈ rowWrites src alg row ↔
      ∃ pix bit : ℤ, 0 ≤ pix ∧ pix < src.width ∧ 0 ≤ bit ∧ bit < src.bpp ∧
        p = (Index pix row src.width bit src.bpp,
             getPixelValue src pix row bit alg) := by
  unfold rowWrites
  simp only [List.mem_flatMap, List.mem_map]
  constructor
  · rintro ⟨pix, hpix, bit, hbit, rfl⟩
    rw [mem_intRange] at hpix hbit
    exact ⟨pix, bit, hpix.1, hpix.2, hbit.1, hbit.2, rfl⟩
  · rintro ⟨pix, bit, h1, h2, h3, h4, rfl⟩
    exact ⟨pix, mem_intRange.mpr ⟨h1, h2⟩, bit, mem_intRange.mpr ⟨h3, h4⟩, rfl⟩

theorem mem_serialFallbackWrites {src : Image} {alg : Matrix} {p : ℤ × ℕ} :
    p ∈ serialFallbackWrites src alg ↔
      ∃ pix row bit : ℤ, 0 ≤ pix ∧ pix < src.width ∧ 0 ≤ row ∧ row < src.height ∧
        0 ≤ bit ∧ bit < src.bpp ∧
        p = (Index pix row src.width bit src.bpp,
             getPixelValue src pix row bit alg) := by
  unfold serialFallbackWrites
  simp only [List.mem_flatMap]
  constructor
  · rintro ⟨row, hrow, hp⟩
    rw [mem_intRange] at hrow
    obtain ⟨pix, bit, h1, h2, h3, h4, rfl⟩ := mem_rowWrites.mp hp
    exact ⟨pix, row, bit, h1, h2, hrow.1, hrow.2, h3, h4, rfl⟩
  · rintro ⟨pix, row, bit, h1, h2, h3, h4, h5, h6, rfl⟩
    exact ⟨row, mem_intRange.mpr ⟨h3, h4⟩,
      mem_rowWrites.mpr ⟨pix, bit, h1, h2, h5, h6, rfl⟩⟩

/-- Evaluating the destination buffer after the serial pass: the byte at
`Index x y width c bpp` is exactly `getPixelValue src x y c alg`. -/
theorem applyWrites_serial (src : Image) (alg : Matrix) (buf : ℤ → ℕ)
    {x y c : ℤ} (hx0 : 0 ≤ x) (hx : x < src.width) (hy0 : 0 ≤ y)
    (hy : y < src.height) (hc0 : 0 ≤ c) (hc : c < src.bpp) :
    applyWrites buf (serialFallbackWrites src alg) (Index x y src.width c src.bpp)
      = getPixelValue src x y c alg := by
  apply applyWrites_of_mem_unique
  · exact mem_serialFallbackWrites.mpr ⟨x, y, c, hx0, hx, hy0, hy, hc0, hc, rfl⟩
  · intro v' hv'
    obtain ⟨pix, row, bit, h1, h2, h3, h4, h5, h6, hp⟩ :=
      mem_serialFallbackWrites.mp hv'
    simp only [Prod.mk.injEq] at hp
    obtain ⟨hidx, hval⟩ := hp
    obtain ⟨hxx, hyy, hcc⟩ :=
      Index_inj hx0 hx hy0 hy hc0 hc h1 h2 h3 h4 h5 h6 hidx
    rw [hval, hxx, hyy, hcc]

theorem bandOffset_nonneg (q r : ℤ) (hq : 0 ≤ q) (hr : 0 ≤ r) (i : ℕ) :
    0 ≤ bandOffset q r i := by
  have h0 := bandOffset_mono q r hq (Nat.zero_le i)
  rw [bandOffset_zero q r hr] at h0
  exact h0

theorem convoluteBands_length {h T : ℤ} (hh : 0 ≤ h) (hT : 1 ≤ T) :
    (convoluteBands h T).length = T.toNat := by
  rw [convoluteBands_eq_map h T hh hT]; simp

theorem convoluteBands_getD {h T : ℤ} (hh : 0 ≤ h) (hT : 1 ≤ T) {i : ℕ}
    (hi : i < T.toNat) :
    (convoluteBands h T).getD i (0, 0)
      = (bandOffset (h.tdiv T) (h.tmod T) i,
         bandOffset (h.tdiv T) (h.tmod T) (i + 1)) := by
  rw [convoluteBands_eq_map h T hh hT]
  rw [List.getD_eq_getElem _ _ (by simpa using hi)]
  simp

/-- Every band lies inside `[0, height]` and is well-ordered. -/
theorem mem_convoluteBands_bounds {h T : ℤ} (hh : 0 ≤ h) (hT : 1 ≤ T) {b : ℤ × ℤ}
    (hb : b ∈ convoluteBands h T) : 0 ≤ b.1 ∧ b.1 ≤ b.2 ∧ b.2 ≤ h := by
  rw [convoluteBands_eq_map h T hh hT] at hb
  simp only [List.mem_map, List.mem_range] at hb
  obtain ⟨i, hi, rfl⟩ := hb
  obtain ⟨hq, hr0, hrT, hsum⟩ := tdiv_tmod_facts h T hh hT
  refine ⟨bandOffset_nonneg _ _ hq hr0 i, bandOffset_mono _ _ hq (Nat.le_succ i), ?_⟩
  have hle := bandOffset_mono (h.tdiv T) (h.tmod T) hq (show i + 1 ≤ T.toNat by omega)
  rw [bandOffset_total h T hh hT] at hle
  exact hle

/-- The rows of the bands, concatenated in launch order, are exactly the rows
`0, ..., height-1`. -/
theorem convoluteBands_rows (h T : ℤ) (hh : 0 ≤ h) (hT : 1 ≤ T) :
    (convoluteBands h T).flatMap (fun band => intRange band.1 band.2)
      = intRange 0 h := by
  obtain ⟨hq, hr0, hrT, hsum⟩ := tdiv_tmod_facts h T hh hT
  rw [convoluteBands_eq_map h T hh hT, List.flatMap_map]
  have hchain := flatMap_intRange_chain (fun i => bandOffset (h.tdiv T) (h.tmod T) i)
    (fun i j hij => bandOffset_mono _ _ hq hij) T.toNat
  simp only [Function.comp] at hchain ⊢
  rw [hchain, bandOffset_zero _ _ hr0, bandOffset_total h T hh hT]

/-- The multi-threaded path performs, in band order, exactly the same write
list as the serial fallback loop. -/
theorem parallelWrites_eq_serial (src dest : Image) (alg : Matrix) (T : ℤ)
    (hh : 0 ≤ src.height) (hT : 1 ≤ T) :
    convoluteParallelWrites src dest alg T = serialFallbackWrites src alg := by
  unfold convoluteParallelWrites serialFallbackWrites convolute_thread_worker
  rw [← convoluteBands_rows src.height T hh hT, List.flatMap_assoc]

/-- Discrete intermediate-value search: a value between `f 0` and `f n` lies
in some interval `[f i, f (i+1))`. -/
theorem exists_interval_index (f : ℕ → ℤ) :
    ∀ (n : ℕ) (y : ℤ), f 0 ≤ y → y < f n → ∃ i, i < n ∧ f i ≤ y ∧ y < f (i + 1) := by
  intro n
  induction n with
  | zero => intro y h0 hn; omega
  | succ n ih =>
    intro y h0 hn
    by_cases hc : f n ≤ y
    · exact ⟨n, Nat.lt_succ_self n, hc, hn⟩
    · obtain ⟨i, hi, h1, h2⟩ := ih y h0 (by omega)
      exact ⟨i, by omega, h1, h2⟩

/-- Every buffer offset in `[0, width*height*bpp)` is `Index x y width c bpp`
for exactly one in-bounds `(x, y, c)`. -/
theorem index_surjective {w h bpp i : ℤ} (hw : 1 ≤ w) (hh : 1 ≤ h) (hbpp : 1 ≤ bpp)
    (h0 : 0 ≤ i) (hlt : i < w * h * bpp) :
    ∃ x y c : ℤ, 0 ≤ x ∧ x < w ∧ 0 ≤ y ∧ y < h ∧ 0 ≤ c ∧ c < bpp ∧
      i = Index x y w c bpp := by
  have hdecomp : bpp * (i / bpp) + i % bpp = i := Int.ediv_add_emod i bpp
  have hc0 : 0 ≤ i % bpp := Int.emod_nonneg i (by omega)
  have hcb : i % bpp < bpp := Int.emod_lt_of_pos i (by omega)
  have ht0 : 0 ≤ i / bpp := Int.ediv_nonneg h0 (by omega)
  have ht_lt : i / bpp < w * h := by
    by_contra hcon
    push_neg at hcon
    have hmul : (w * h) * bpp ≤ (i / bpp) * bpp :=
      mul_le_mul_of_nonneg_right hcon (by omega)
    have e : (i / bpp) * bpp = bpp * (i / bpp) := by ring
    linarith
  have hdecomp2 : (i / bpp) / w * w + (i / bpp) % w = i / bpp :=
    Int.ediv_add_emod' (i / bpp) w
  have hx0 : 0 ≤ (i / bpp) % w := Int.emod_nonneg _ (by omega)
  have hxw : (i / bpp) % w < w := Int.emod_lt_of_pos _ (by omega)
  have hy0 : 0 ≤ (i / bpp) / w := Int.ediv_nonneg ht0 (by omega)
  have hyh : (i / bpp) / w < h := by
    by_contra hcon
    push_neg at hcon
    have hmul : h * w ≤ ((i / bpp) / w) * w :=
      mul_le_mul_of_nonneg_right hcon (by omega)
    have e : h * w = w * h := by ring
    linarith
  refine ⟨(i / bpp) % w, (i / bpp) / w, i % bpp, hx0, hxw, hy0, hyh, hc0, hcb, ?_⟩
  unfold Index
  rw [hdecomp2]
  linarith [hdecomp]

theorem clampByte_natCast (n : ℕ) (h : n ≤ 255) : clampByte (n : ℚ) = n := by
  have h1 : ((n : ℚ) ≤ 255) := by exact_mod_cast h
  have h2 : ((0 : ℚ) ≤ (n : ℚ)) := by positivity
  simp only [clampByte]
  rw [if_neg (not_lt.mpr h1), if_neg (not_lt.mpr h2)]
  rw [Int.floor_natCast]
  simp

/-- With the IDENTITY kernel the evaluator returns the source byte
unchanged. -/
theorem getPixelValue_identity (src : Image) (x y bit : ℤ)
    (hdata : ∀ i, src.data i ≤ 255) :
    getPixelValue src x y bit identityKernel
      = src.data (Index x y src.width bit src.bpp) := by
  have e00 : identityKernel 0 0 = 0 := by decide
  have e01 : identityKernel 0 1 = 0 := by decide
  have e02 : identityKernel 0 2 = 0 := by decide
  have e10 : identityKernel 1 0 = 0 := by decide
  have e11 : identityKernel 1 1 = 1 := by decide
  have e12 : identityKernel 1 2 = 0 := by decide
  have e20 : identityKernel 2 0 = 0 := by decide
  have e21 : identityKernel 2 1 = 0 := by decide
  have e22 : identityKernel 2 2 = 0 := by decide
  simp only [getPixelValue, e00, e01, e02, e10, e11, e12, e20, e21, e22]
  norm_num
  exact clampByte_natCast _ (hdata _)

/-- A failing `pthread_create` index is one of the `num_threads` creation
attempts. -/
theorem firstFailure_lt {f : ℕ → Bool} {n i : ℕ} (h : firstFailure f n = some i) :
    i < n :=
  List.mem_range.mp (List.mem_of_find?_eq_some h)

/-! ## Claim-level theorems -/

/-- C2: for every height ≥ 1 and thread count T ≥ 1, the row bands computed
by convolute (with q = height / T and r = height % T, the first r bands
getting q+1 rows and the remaining T-r bands getting q rows, laid out
consecutively starting at row 0) are pairwise disjoint half-open ranges whose
union is exactly the rows 0 ≤ y < height, and any two bands differ in size by
at most 1 row. -/
theorem claim_C2 (height T : ℤ) (hh : 1 ≤ height) (hT : 1 ≤ T) :
    bandsPartitionSpec height T := by
  obtain ⟨hq, hr0, hrT, hsum⟩ := tdiv_tmod_facts height T (by omega) hT
  have hlen := convoluteBands_length (h := height) (T := T) (by omega) hT
  have htot := bandOffset_total height T (by omega) hT
  refine ⟨hlen, ?_, ?_, ?_, ?_, ?_, ?_⟩
  · intro i hi
    rw [hlen] at hi
    rw [convoluteBands_getD (by omega) hT hi]
    simpa using bandOffset_succ_sub (height.tdiv T) (height.tmod T) hr0 i
  · intro i hi
    rw [hlen] at hi
    rw [convoluteBands_getD (by omega) hT hi,
      convoluteBands_getD (by omega) hT (by omega : i < T.toNat)]
  · intro hpos
    rw [hlen] at hpos
    rw [convoluteBands_getD (by omega) hT hpos]
    simpa using bandOffset_zero (height.tdiv T) (height.tmod T) hr0
  · intro i j hi hj hij y hcon
    rw [hlen] at hi hj
    rw [convoluteBands_getD (by omega) hT hi,
      convoluteBands_getD (by omega) hT hj] at hcon
    obtain ⟨h1, h2, h3, h4⟩ := hcon
    rcases lt_or_gt_of_ne hij with hlt | hgt
    · have hm := bandOffset_mono (height.tdiv T) (height.tmod T) hq
        (show i + 1 ≤ j by omega)
      simp only at h1 h2 h3 h4
      linarith
    · have hm := bandOffset_mono (height.tdiv T) (height.tmod T) hq
        (show j + 1 ≤ i by omega)
      simp only at h1 h2 h3 h4
      linarith
  · intro y
    constructor
    · rintro ⟨b, hb, hy1, hy2⟩
      obtain ⟨hb1, _, hb3⟩ := mem_convoluteBands_bounds (by omega) hT hb
      constructor <;> linarith
    · rintro ⟨hy0, hyh⟩
      obtain ⟨i, hi, h1, h2⟩ :=
        exists_interval_index (fun i => bandOffset (height.tdiv T) (height.tmod T) i)
          T.toNat y
          (by show bandOffset (height.tdiv T) (height.tmod T) 0 ≤ y
              rw [bandOffset_zero _ _ hr0]; exact hy0)
          (by show y < bandOffset (height.tdiv T) (height.tmod T) T.toNat
              rw [htot]; exact hyh)
      refine ⟨(bandOffset (height.tdiv T) (height.tmod T) i,
        bandOffset (height.tdiv T) (height.tmod T) (i + 1)), ?_, h1, h2⟩
      rw [convoluteBands_eq_map height T (by omega) hT]
      exact List.mem_map.mpr ⟨i, List.mem_range.mpr hi, rfl⟩
  · intro i j hi hj
    rw [hlen] at hi hj
    rw [convoluteBands_getD (by omega) hT hi, convoluteBands_getD (by omega) hT hj]
    have s1 := bandOffset_succ_sub (height.tdiv T) (height.tmod T) hr0 i
    have s2 := bandOffset_succ_sub (height.tdiv T) (height.tmod T) hr0 j
    simp only
    rw [s1, s2]
    split_ifs <;> omega

/-- Witness for C2 at height 4, T = 3. -/
theorem claim_C2_witness : ((1 : ℤ) ≤ 4 ∧ (1 : ℤ) ≤ 3) ∧ bandsPartitionSpec 4 3 :=
  ⟨⟨by norm_num, by norm_num⟩, claim_C2 4 3 (by norm_num) (by norm_num)⟩

/-- C1: for every valid image (width ≥ 1, height ≥ 1, bpp in 1..4) and every
3x3 kernel, the destination buffer produced by the multi-threaded convolute
path (T ≥ 1 workers) is byte-identical to the one produced by the
single-threaded serial fallback loop: both write, for every (row, column,
channel), exactly getPixelValue(src, column, row, channel, kernel) at the
same offset. -/
theorem claim_C1 (src dest : Image) (alg : Matrix) (T : ℤ)
    (hw : 1 ≤ src.width) (hh : 1 ≤ src.height) (hb1 : 1 ≤ src.bpp)
    (hb4 : src.bpp ≤ 4) (hT : 1 ≤ T) :
    parallelSerialSpec src dest alg T := by
  have heq := parallelWrites_eq_serial src dest alg T (by omega) hT
  refine ⟨heq, fun j => by rw [heq], ?_⟩
  intro x y c hx0 hx hy0 hy hc0 hc
  rw [heq]
  exact ⟨applyWrites_serial src alg dest.data hx0 hx hy0 hy hc0 hc,
    applyWrites_serial src alg dest.data hx0 hx hy0 hy hc0 hc⟩

/-- Witness for C1 on a concrete 2x2 image with the SHARPEN kernel and
T = 2 workers. -/
theorem claim_C1_witness :
    ((1 : ℤ) ≤ witSrc.width ∧ (1 : ℤ) ≤ witSrc.height ∧ (1 : ℤ) ≤ witSrc.bpp ∧
      witSrc.bpp ≤ 4 ∧ (1 : ℤ) ≤ 2) ∧
    parallelSerialSpec witSrc witDest sharpenKernel 2 :=
  ⟨⟨by decide, by decide, by decide, by decide, by decide⟩,
    claim_C1 witSrc witDest sharpenKernel 2 (by decide) (by decide) (by decide)
      (by decide) (by decide)⟩

/-- C3: for every in-bounds pixel (x, y), getPixelValue reads exactly the 3x3
neighborhood of (x, y) with each neighbor coordinate independently clamped
per axis to the nearest in-bounds coordinate (replicate-edge policy, no
zero-padding, no wraparound), and its value is the clamped weighted sum over
those clamped coordinates; for a 1x1 image all nine neighbor references
resolve to the single pixel itself. -/
theorem claim_C3 (src : Image) (alg : Matrix) (x y bit : ℤ)
    (hw : 1 ≤ src.width) (hhh : 1 ≤ src.height)
    (hx0 : 0 ≤ x) (hx : x < src.width) (hy0 : 0 ≤ y) (hy : y < src.height) :
    getPixelReadIndices src x y bit = specReadIndices src x y bit ∧
    getPixelValue src x y bit alg = clampByte (specNeighborhoodValue src x y bit alg) ∧
    (src.width = 1 → src.height = 1 →
      getPixelReadIndices src x y bit
        = List.replicate 9 (Index x y src.width bit src.bpp)) := by
  have hmx : specClamp 0 (src.width - 1) (x - 1) = (if x - 1 < 0 then 0 else x - 1) := by
    unfold specClamp; split_ifs <;> omega
  have hpx : specClamp 0 (src.width - 1) (x + 1)
      = (if x + 1 ≥ src.width then src.width - 1 else x + 1) := by
    unfold specClamp; split_ifs <;> omega
  have hcx : specClamp 0 (src.width - 1) x = x := by unfold specClamp; omega
  have hmy : specClamp 0 (src.height - 1) (y - 1) = (if y - 1 < 0 then 0 else y - 1) := by
    unfold specClamp; split_ifs <;> omega
  have hpy : specClamp 0 (src.height - 1) (y + 1)
      = (if y + 1 ≥ src.height then src.height - 1 else y + 1) := by
    unfold specClamp; split_ifs <;> omega
  have hcy : specClamp 0 (src.height - 1) y = y := by unfold specClamp; omega
  refine ⟨?_, ?_, ?_⟩
  · simp only [getPixelReadIndices, specReadIndices, hmx, hpx, hcx, hmy, hpy, hcy]
  · simp only [getPixelValue, specNeighborhoodValue, hmx, hpx, hcx, hmy, hpy, hcy]
  · intro hw1 hh1
    have hx1 : x = 0 := by omega
    have hy1 : y = 0 := by omega
    subst hx1; subst hy1
    simp only [getPixelReadIndices, hw1, hh1]
    norm_num [List.replicate]

/-- Witness for C3 on the concrete 2x2 witness image at pixel (0, 1). -/
theorem claim_C3_witness :
    ((1 : ℤ) ≤ witSrc.width ∧ (1 : ℤ) ≤ witSrc.height ∧ (0 : ℤ) ≤ 0 ∧
      (0 : ℤ) < witSrc.width ∧ (0 : ℤ) ≤ 1 ∧ (1 : ℤ) < witSrc.height) ∧
    (getPixelReadIndices witSrc 0 1 0 = specReadIndices witSrc 0 1 0 ∧
      getPixelValue witSrc 0 1 0 sharpenKernel
        = clampByte (specNeighborhoodValue witSrc 0 1 0 sharpenKernel) ∧
      (witSrc.width = 1 → witSrc.height = 1 →
        getPixelReadIndices witSrc 0 1 0
          = List.replicate 9 (Index 0 1 witSrc.width 0 witSrc.bpp))) :=
  ⟨⟨by decide, by decide, by decide, by decide, by decide, by decide⟩,
    claim_C3 witSrc sharpenKernel 0 1 0 (by decide) (by decide) (by decide)
      (by decide) (by decide) (by decide)⟩

/-- C4: convolving the 4x4 single-channel image (all zero, center pixel
(1,1) = 100) with the kernel [[0,-1,0],[-1,5,-1],[0,-1,0]] yields 255 at the
center (raw 500 clamped), 0 at its four direct neighbors (raw -100 clamped),
and 0 everywhere else. -/
theorem claim_C4 :
    (intRange 0 16).map
        (applyWrites clampTestDest.data
          (serialFallbackWrites clampTestSrc sharpenKernel))
      = [0, 0, 0, 0, 0, 255, 0, 0, 0, 0, 0, 0, 0, 0, 0, 0] ∧
    getPixelValue clampTestSrc 1 1 0 sharpenKernel = 255 ∧
    getPixelValue clampTestSrc 1 0 0 sharpenKernel = 0 ∧
    getPixelValue clampTestSrc 0 1 0 sharpenKernel = 0 ∧
    getPixelValue clampTestSrc 2 1 0 sharpenKernel = 0 ∧
    getPixelValue clampTestSrc 1 2 0 sharpenKernel = 0 := by
  decide

/-- C5: convolving any valid image with the identity kernel
[[0,0,0],[0,1,0],[0,0,0]] produces a destination buffer in which every byte
in range equals the corresponding source byte. -/
theorem claim_C5 (src dest : Image)
    (hw : 1 ≤ src.width) (hh : 1 ≤ src.height) (hb1 : 1 ≤ src.bpp)
    (hb4 : src.bpp ≤ 4) (hdata : ∀ i, src.data i ≤ 255) :
    ∀ i : ℤ, 0 ≤ i → i < src.width * src.height * src.bpp →
      applyWrites dest.data (serialFallbackWrites src identityKernel) i
        = src.data i := by
  intro i h0 hlt
  obtain ⟨x, y, c, hx0, hx, hy0, hy, hc0, hc, rfl⟩ :=
    index_surjective hw hh hb1 h0 hlt
  rw [applyWrites_serial src identityKernel dest.data hx0 hx hy0 hy hc0 hc]
  exact getPixelValue_identity src x y c hdata

/-- Witness for C5 on the concrete 2x2 witness image. -/
theorem claim_C5_witness :
    ((1 : ℤ) ≤ witSrc.width ∧ (1 : ℤ) ≤ witSrc.height ∧ (1 : ℤ) ≤ witSrc.bpp ∧
      witSrc.bpp ≤ 4 ∧ (∀ i, witSrc.data i ≤ 255)) ∧
    (∀ i : ℤ, 0 ≤ i → i < witSrc.width * witSrc.height * witSrc.bpp →
      applyWrites witDest.data (serialFallbackWrites witSrc identityKernel) i
        = witSrc.data i) :=
  ⟨⟨by decide, by decide, by decide, by decide,
      fun i => by show (7 : ℕ) ≤ 255; decide⟩,
    claim_C5 witSrc witDest (by decide) (by decide) (by decide) (by decide)
      (fun i => by show (7 : ℕ) ≤ 255; decide)⟩

/-- C6, counterexample: the claim that after a mid-dispatch spawn failure the
scheduler first joins all already-started workers before exiting is false:
with 4 cores and a failure at thread index 2, `convolute` exits having
performed 0 joins, not 2. -/
theorem claim_C6_counterexample :
    ¬ (∀ (src dest : Image) (alg : Matrix) (env : ConvEnv) (i : ℕ),
        env.allocOk = true →
        firstFailure env.spawnFails env.numCores.toNat = some i →
        0 < i →
        convolute src dest alg env = ConvResult.fatalExit i i) := by
  intro hcl
  have h := hcl witSrc witDest identityKernel envSpawnFail2 2 rfl (by decide)
    (by decide)
  have h2 : convolute witSrc witDest identityKernel envSpawnFail2
      = ConvResult.fatalExit 2 0 := rfl
  rw [h2] at h
  simp at h

/-- C6 (amended): if a `pthread_create` fails, `convolute` terminates the
process fatally at once, with zero joins before the exit, and never returns
control to the caller (so no partially-written destination is ever
returned). -/
theorem claim_C6 (src dest : Image) (alg : Matrix) (env : ConvEnv) (i : ℕ)
    (ha : env.allocOk = true)
    (hf : firstFailure env.spawnFails env.numCores.toNat = some i) :
    spawnFailureFatalSpec src dest alg env i := by
  have hlt : i < env.numCores.toNat := firstFailure_lt hf
  have hmain : convolute src dest alg env = ConvResult.fatalExit i 0 := by
    have h1 : ¬ (env.numCores < 0) := by omega
    have h2 : ¬ (env.numCores = 0) := by omega
    unfold convolute
    rw [ha]
    simp [hf, h1, h2]
  exact ⟨hmain, fun f n hcon => by rw [hmain] at hcon; cases hcon⟩

/-- Witness for C6 in the environment whose third spawn fails. -/
theorem claim_C6_witness :
    (envSpawnFail2.allocOk = true ∧
      firstFailure envSpawnFail2.spawnFails envSpawnFail2.numCores.toNat
        = some 2) ∧
    spawnFailureFatalSpec witSrc witDest identityKernel envSpawnFail2 2 :=
  ⟨⟨rfl, by decide⟩,
    claim_C6 witSrc witDest identityKernel envSpawnFail2 2 rfl (by decide)⟩

/-- C7, counterexample: the claim that `convolute` rejects an invalid
source/destination pair without writing anything is false: with a width-5
destination paired to a 2x2 source, `convolute` still returns a buffer whose
byte 0 was overwritten (7, the convolved value, instead of the original
0). -/
theorem claim_C7_counterexample :
    ¬ (∀ (src dest : Image) (alg : Matrix) (env : ConvEnv),
        ¬ validImagePair src dest →
        ∀ f, (convolute src dest alg env).finalData? = some f →
          ∀ i, f i = dest.data i) := by
  intro hcl
  have hinv : ¬ validImagePair witSrc invalidDest := by
    intro hv
    have h1 := hv.1
    exact absurd h1 (by decide)
  have h := hcl witSrc invalidDest identityKernel envNoFail1 hinv
    (applyWrites invalidDest.data
      (convoluteParallelWrites witSrc invalidDest identityKernel 1)) rfl 0
  exact absurd h (by decide)

/-- C7 (amended): `convolute` performs no precondition check at all: for any
pair of images, valid or not, it proceeds to compute and write the full
convolution (using the source image's geometry) whenever allocation succeeds
and all spawns succeed. There is no rejection path in its result type. -/
theorem claim_C7 (src dest : Image) (alg : Matrix) (env : ConvEnv)
    (ha : env.allocOk = true)
    (hf : firstFailure env.spawnFails env.numCores.toNat = none)
    (hT : 1 ≤ env.numCores) :
    noValidationSpec src dest alg env := by
  refine ⟨applyWrites dest.data
    (convoluteParallelWrites src dest alg env.numCores), ?_, ?_⟩
  · have h1 : ¬ (env.numCores < 0) := by omega
    have h2 : ¬ (env.numCores = 0) := by omega
    unfold convolute
    rw [ha]
    simp [hf, h1, h2, ConvResult.finalData?]
  · intro x y c hx0 hx hy0 hy hc0 hc
    rw [parallelWrites_eq_serial src dest alg env.numCores (by omega) hT]
    exact applyWrites_serial src alg dest.data hx0 hx hy0 hy hc0 hc

/-- Witness for C7 on the mismatched 2x2-source / width-5-destination pair. -/
theorem claim_C7_witness :
    (envNoFail1.allocOk = true ∧
      firstFailure envNoFail1.spawnFails envNoFail1.numCores.toNat = none ∧
      (1 : ℤ) ≤ envNoFail1.numCores) ∧
    noValidationSpec witSrc invalidDest identityKernel envNoFail1 :=
  ⟨⟨rfl, by decide, by decide⟩,
    claim_C7 witSrc invalidDest identityKernel envNoFail1 rfl (by decide)
      (by decide)⟩

/-- C8: for every valid image (including 1-row or 1-column images) and every
kernel, every memory access of the convolution is in bounds: the nine source
reads of getPixelValue and the destination write of the worker all use an
offset in [0, width*height*bpp), over every band row as well as every serial
row. -/
theorem claim_C8 (src : Image) (T : ℤ)
    (hw : 1 ≤ src.width) (hh : 1 ≤ src.height) (hb1 : 1 ≤ src.bpp)
    (hb4 : src.bpp ≤ 4) (hT : 1 ≤ T) :
    convolutionAccessesInBounds src T := by
  have main : ∀ row : ℤ, 0 ≤ row → row < src.height →
      ∀ pix : ℤ, 0 ≤ pix → pix < src.width → ∀ bit : ℤ, 0 ≤ bit → bit < src.bpp →
      (∀ i ∈ getPixelReadIndices src pix row bit,
        0 ≤ i ∧ i < src.width * src.height * src.bpp) ∧
      0 ≤ Index pix row src.width bit src.bpp ∧
      Index pix row src.width bit src.bpp
        < src.width * src.height * src.bpp := by
    intro row hr0 hrh pix hp0 hpw bit hb0 hbb
    have hIdx : ∀ cx cy : ℤ, 0 ≤ cx → cx < src.width → 0 ≤ cy → cy < src.height →
        0 ≤ Index cx cy src.width bit src.bpp ∧
        Index cx cy src.width bit src.bpp < src.width * src.height * src.bpp :=
      fun cx cy h1 h2 h3 h4 =>
        ⟨Index_nonneg h1 h3 hb0 (by omega) (by omega),
         Index_lt h1 h2 h3 h4 hb0 hbb⟩
    refine ⟨?_, hIdx pix row hp0 hpw hr0 hrh⟩
    intro i hi
    simp only [getPixelReadIndices, List.mem_cons, List.not_mem_nil, or_false] at hi
    rcases hi with rfl | rfl | rfl | rfl | rfl | rfl | rfl | rfl | rfl <;>
      exact hIdx _ _ (by (try split_ifs) <;> omega) (by (try split_ifs) <;> omega)
        (by (try split_ifs) <;> omega) (by (try split_ifs) <;> omega)
  refine ⟨?_, main⟩
  intro band hband row hr1 hr2 pix hp0 hpw bit hb0 hbb
  obtain ⟨hbl, hbm, hbr⟩ := mem_convoluteBands_bounds (by omega) hT hband
  exact main row (by omega) (by omega) pix hp0 hpw bit hb0 hbb

/-- Witness for C8 on the concrete 2x2 witness image with T = 2. -/
theorem claim_C8_witness :
    ((1 : ℤ) ≤ witSrc.width ∧ (1 : ℤ) ≤ witSrc.height ∧ (1 : ℤ) ≤ witSrc.bpp ∧
      witSrc.bpp ≤ 4 ∧ (1 : ℤ) ≤ 2) ∧
    convolutionAccessesInBounds witSrc 2 :=
  ⟨⟨by decide, by decide, by decide, by decide, by decide⟩,
    claim_C8 witSrc 2 (by decide) (by decide) (by decide) (by decide)
      (by decide)⟩

/-- C9, counterexample: the claim that the parallelism degree used by the
scheduler is always at least 1 is false: when the concurrency query fails
(returns -1), `convolute` uses -1 as its thread count. -/
theorem claim_C9_counterexample :
    ¬ (∀ env : ConvEnv, 1 ≤ convoluteNumThreads env) := by
  intro hcl
  exact absurd (hcl envQueryFailed) (by decide)

/-- C9 (amended): the scheduler takes the `sysconf` value as its thread count
with no validation or fallback; when the query fails (negative value) the
worker-array allocation request is enormous and necessarily fails, so the
serial fallback writes the entire image and the call returns; when the query
reports 0 and `malloc(0)` succeeds, the band computation divides by zero
(undefined behavior), and if `malloc(0)` yields NULL the serial fallback runs
instead. -/
theorem claim_C9 (src dest : Image) (alg : Matrix) (env : ConvEnv)
    (hq : env.numCores ≤ 0) :
    degenerateSchedulerSpec src dest alg env := by
  refine ⟨rfl, ?_, ?_, ?_⟩
  · intro hneg
    unfold convolute
    rw [if_pos (Or.inl hneg)]
  · intro h0 ha
    unfold convolute
    rw [ha, if_neg (by simp; omega), if_pos h0]
  · intro h0 ha
    unfold convolute
    rw [if_pos (Or.inr ha)]

/-- Witness for C9 in the environment whose concurrency query failed: the
serial fallback writes the whole image. -/
theorem claim_C9_witness :
    envQueryFailed.numCores ≤ 0 ∧
    degenerateSchedulerSpec witSrc witDest identityKernel envQueryFailed :=
  ⟨by decide,
    claim_C9 witSrc witDest identityKernel envQueryFailed (by decide)⟩

/-- C10: when the thread count T exceeds the image height, some worker gets
an empty band (start_row = end_row); a worker with an empty band performs no
writes; and every row in [0, height) still lies in exactly one band. -/
theorem claim_C10 (height T : ℤ) (hh : 1 ≤ height) (hT : height < T) :
    emptyBandsSpec height T := by
  have hT1 : 1 ≤ T := by omega
  obtain ⟨hq, hr0, hrT, hsum⟩ := tdiv_tmod_facts height T (by omega) hT1
  have hq0 : height.tdiv T = 0 := by
    rw [Int.tdiv_eq_ediv (by omega) (by omega)]
    exact Int.ediv_eq_zero_of_lt (by omega) hT
  have hr : height.tmod T = height := by
    rw [hq0, mul_zero, zero_add] at hsum
    exact hsum
  refine ⟨?_, ?_, ?_⟩
  · rw [convoluteBands_eq_map height T (by omega) hT1]
    have hi : T.toNat - 1 < T.toNat := by omega
    refine ⟨_, List.mem_map.mpr ⟨T.toNat - 1, List.mem_range.mpr hi, rfl⟩, ?_⟩
    have hs := bandOffset_succ_sub (height.tdiv T) (height.tmod T) hr0 (T.toNat - 1)
    have hnotlt : ¬ ((T.toNat - 1 : ℕ) : ℤ) < height.tmod T := by omega
    rw [if_neg hnotlt] at hs
    simp only
    omega
  · intro td h
    unfold convolute_thread_worker
    rw [h, intRange_self]
    rfl
  · intro y hy0 hyh
    have hlen := convoluteBands_length (h := height) (T := T) (by omega) hT1
    have htot := bandOffset_total height T (by omega) hT1
    obtain ⟨i, hi, h1, h2⟩ :=
      exists_interval_index (fun i => bandOffset (height.tdiv T) (height.tmod T) i)
        T.toNat y
        (by show bandOffset (height.tdiv T) (height.tmod T) 0 ≤ y
            rw [bandOffset_zero _ _ hr0]; exact hy0)
        (by show y < bandOffset (height.tdiv T) (height.tmod T) T.toNat
            rw [htot]; exact hyh)
    refine ⟨i, by omega, ?_, ?_, ?_⟩
    · rw [convoluteBands_getD (by omega) hT1 hi]; exact h1
    · rw [convoluteBands_getD (by omega) hT1 hi]; exact h2
    · intro j hj hj1 hj2
      rw [hlen] at hj
      rw [convoluteBands_getD (by omega) hT1 hj] at hj1 hj2
      simp only at hj1 hj2
      rcases lt_trichotomy j i with hlt | heq | hgt
      · exfalso
        have hm := bandOffset_mono (height.tdiv T) (height.tmod T) hq
          (show j + 1 ≤ i by omega)
        linarith
      · exact heq
      · exfalso
        have hm := bandOffset_mono (height.tdiv T) (height.tmod T) hq
          (show i + 1 ≤ j by omega)
        linarith

/-- Witness for C10 at height 2, T = 7. -/
theorem claim_C10_witness :
    ((1 : ℤ) ≤ 2 ∧ (2 : ℤ) < 7) ∧ emptyBandsSpec 2 7 :=
  ⟨⟨by norm_num, by norm_num⟩, claim_C10 2 7 (by norm_num) (by norm_num)⟩

end ImagePThreads
